import Mathlib

/-!
Shallow embedding of the Monte Carlo revenue-forecast core (`api/simulation.py`,
data model from `api/models.py`, defaults from `api/config.py`).

Modelling conventions:
* Python `float` values are modelled as exact rationals `ℚ`; the one genuinely
  irrational quantity (the standard deviation, a square root) is modelled in `ℝ`.
* Calendar dates are modelled as integers (a day count); `date.today()` is an
  injected parameter `today`, and `today + timedelta(days=d)` is `today + d`.
* The NumPy uniform draw matrix `np.random.uniform(0, 1, size = (N, n))` is an
  injected function `draws : ℕ → ℕ → ℚ` (trial index, then deal index).
* Python `round` and `%.1f` formatting round half to even (`pyRoundInt`).
* Python `sorted` / NumPy internal sorting is modelled by insertion sort, which
  produces the same (ascending) result on rational values.
* `compute_summary_statistics` raises a NumPy error when the outcome array is
  empty (`np.percentile` / `np.min` of an empty array); fallible code is
  modelled with `Except SimError`.  All other functions are total.
* Display-only fields that no claim mentions are omitted: the dead local
  `target_label` of `compute_target_analysis`, the `label` field of
  `HistogramBucket`, and the wall-clock `compute_time_ms` / `timestamp` /
  `api_version` metadata fields (real time is not modelled).
-/

/-- One sales opportunity (`models.Opportunity`): an amount in USD, a win
probability in `[0,1]`, and an expected close date (days). -/
structure Opportunity where
  name : String
  amount : ℚ
  probability : ℚ
  close_date : ℤ

/-- Horizon filter (`simulation.filter_opportunities_by_horizon`): keep the
opportunities whose close date lies in `[today, today + d]`; report how many
were dropped.  `today` is the injected current date. -/
def filter_opportunities_by_horizon (today : ℤ) (opportunities : List Opportunity)
    (time_horizon_days : Option ℤ) : List Opportunity × ℕ :=
  match time_horizon_days with
  | none => (opportunities, 0)
  | some d =>
      let horizon_date := today + d
      let included := opportunities.filter
        (fun o => decide (today ≤ o.close_date ∧ o.close_date ≤ horizon_date))
      (included, opportunities.length - included.length)

/-- Amount contributed by one opportunity given its uniform draw:
`random_draws < probabilities` selects the won deals, and a won deal
contributes its full amount (`won_matrix * amounts`). -/
def wonAmount (o : Opportunity) (draw : ℚ) : ℚ :=
  if draw < o.probability then o.amount else 0

/-- Revenue of a single simulated trial: the sum of the amounts of won deals
(`(won_matrix * amounts).sum(axis=1)` for one row of the draw matrix). -/
def trialOutcome : List Opportunity → (ℕ → ℚ) → ℚ
  | [], _ => 0
  | o :: rest, draws => wonAmount o (draws 0) + trialOutcome rest (fun j => draws (j + 1))

/-- Trial engine (`simulation.run_monte_carlo`): an all-zero distribution when
there are no opportunities, otherwise one `trialOutcome` per trial index. -/
def run_monte_carlo (opportunities : List Opportunity) (num_simulations : ℕ)
    (draws : ℕ → ℕ → ℚ) : List ℚ :=
  if opportunities.isEmpty then List.replicate num_simulations 0
  else (List.range num_simulations).map (fun i => trialOutcome opportunities (draws i))

/-- Round a rational to the nearest integer, ties to even — the rounding used
by Python `round` and by `printf`-style fixed-point formatting. -/
def pyRoundInt (q : ℚ) : ℤ :=
  let f := ⌊q⌋
  let r := q - (f : ℚ)
  if r < 1 / 2 then f
  else if 1 / 2 < r then f + 1
  else if f % 2 = 0 then f else f + 1

/-- Python `round(q, ndigits)`. -/
def pyRound (ndigits : ℕ) (q : ℚ) : ℚ :=
  (pyRoundInt (q * 10 ^ ndigits) : ℚ) / 10 ^ ndigits

/-- Python `f"{q:.1f}"` for a nonnegative rational. -/
def fmtFixed1 (q : ℚ) : String :=
  let k := (pyRoundInt (q * 10)).toNat
  toString (k / 10) ++ "." ++ toString (k % 10)

/-- Ascending sort of rationals (Python `sorted`, NumPy internal sort). -/
def sortAsc (xs : List ℚ) : List ℚ :=
  xs.insertionSort (· ≤ ·)

/-- NumPy `np.mean`: the arithmetic mean (for a nonempty list). -/
def npMean (xs : List ℚ) : ℚ :=
  xs.sum / xs.length

/-- NumPy `np.median`: middle element of the sorted data, or the mean of the
two middle elements when the length is even. -/
def npMedian (xs : List ℚ) : ℚ :=
  let b := sortAsc xs
  let n := b.length
  if n = 0 then 0
  else if n % 2 = 1 then b.getD (n / 2) 0
  else (b.getD (n / 2 - 1) 0 + b.getD (n / 2) 0) / 2

/-- Linear interpolation at fractional rank `r` into a sorted list `b`
(the interpolation step of NumPy percentiles): value
`b[⌊r⌋] + (r - ⌊r⌋) * (b[⌊r⌋ + 1] - b[⌊r⌋])`, clamped to the last element. -/
def interpAt (b : List ℚ) (r : ℚ) : ℚ :=
  let i := (⌊r⌋).toNat
  if i + 1 < b.length then b.getD i 0 + (r - (i : ℚ)) * (b.getD (i + 1) 0 - b.getD i 0)
  else b.getD (b.length - 1) 0

/-- NumPy `np.percentile(xs, q)` with the default linear-interpolation method:
interpolate at rank `q / 100 * (len - 1)` into the sorted data. -/
def npPercentile (xs : List ℚ) (q : ℚ) : ℚ :=
  interpAt (sortAsc xs) (q / 100 * ((xs.length : ℚ) - 1))

/-- NumPy `np.min` of a nonempty list (0 as an unused total default). -/
def npMin (xs : List ℚ) : ℚ :=
  match xs.min? with
  | some m => m
  | none => 0

/-- NumPy `np.max` of a nonempty list (0 as an unused total default). -/
def npMax (xs : List ℚ) : ℚ :=
  match xs.max? with
  | some m => m
  | none => 0

/-- Population variance: mean squared deviation, divisor `n` (NumPy `np.std`
squares to exactly this — `ddof = 0`, no sample correction). -/
def popVariance (xs : List ℚ) : ℚ :=
  (xs.map (fun x => (x - npMean xs) ^ 2)).sum / xs.length

/-- NumPy `np.std`: square root of the population variance. -/
noncomputable def npStd (xs : List ℚ) : ℝ :=
  Real.sqrt (popVariance xs)

/-- Output record of the statistics component (`models.SummaryStatistics`). -/
structure SummaryStatistics where
  mean : ℚ
  median : ℚ
  std_dev : ℝ
  p10 : ℚ
  p25 : ℚ
  p75 : ℚ
  p90 : ℚ
  min_outcome : ℚ
  max_outcome : ℚ
  total_pipeline_value : ℚ
  weighted_pipeline_value : ℚ

/-- Failure of the core: the NumPy reductions (`np.percentile`, `np.min`,
`np.max`) raise on an empty outcome array. -/
inductive SimError where
  | emptyDistribution
deriving DecidableEq

/-- Body of `simulation.compute_summary_statistics` on a nonempty outcome
distribution: distribution statistics plus the two pipeline aggregates, which
are computed from the event data (`sum(o.amount ...)`) and rounded to cents. -/
noncomputable def summaryStats (outcomes : List ℚ) (opportunities : List Opportunity) :
    SummaryStatistics :=
  { mean := npMean outcomes
    median := npMedian outcomes
    std_dev := npStd outcomes
    p10 := npPercentile outcomes 10
    p25 := npPercentile outcomes 25
    p75 := npPercentile outcomes 75
    p90 := npPercentile outcomes 90
    min_outcome := npMin outcomes
    max_outcome := npMax outcomes
    total_pipeline_value := pyRound 2 (opportunities.map (fun o => o.amount)).sum
    weighted_pipeline_value :=
      pyRound 2 (opportunities.map (fun o => o.amount * o.probability)).sum }

/-- Distribution statistics (`simulation.compute_summary_statistics`): raises
(NumPy reduction error) on an empty distribution, otherwise `summaryStats`. -/
noncomputable def compute_summary_statistics (outcomes : List ℚ)
    (opportunities : List Opportunity) : Except SimError SummaryStatistics :=
  if outcomes.isEmpty then .error .emptyDistribution
  else .ok (summaryStats outcomes opportunities)

/-- Count of outcomes meeting or exceeding a target
(`np.sum(outcomes >= target)`). -/
def countGe (outcomes : List ℚ) (target : ℚ) : ℕ :=
  outcomes.countP (fun x => decide (target ≤ x))

/-- Output record of the target-analysis component (`models.TargetAnalysis`). -/
structure TargetAnalysis where
  target : ℚ
  probability : ℚ
  probability_pct : String

/-- Target analysis (`simulation.compute_target_analysis`): iterate over the
targets in ascending order; for each, report the empirical hit probability
rounded to 4 decimals and a percentage string built from the unrounded
probability. -/
def compute_target_analysis (outcomes : List ℚ) (targets : List ℚ)
    (num_simulations : ℕ) : List TargetAnalysis :=
  (sortAsc targets).map (fun target =>
    let probability := (countGe outcomes target : ℚ) / (num_simulations : ℚ)
    { target := pyRound 2 target
      probability := pyRound 4 probability
      probability_pct := fmtFixed1 (probability * 100) ++ "%" })

/-- Output record of the histogram component (`models.HistogramBucket`). -/
structure HistogramBucket where
  range_low : ℚ
  range_high : ℚ
  count : ℕ
  frequency : ℚ

/-- Outer edges used by `np.histogram`: the observed `[min, max]` range,
widened to `[min - 0.5, max + 0.5]` when the range is degenerate, and the
default `(0, 1)` for an empty array. -/
def histRange (outcomes : List ℚ) : ℚ × ℚ :=
  if outcomes.isEmpty then (0, 1)
  else
    let mn := npMin outcomes
    let mx := npMax outcomes
    if mn = mx then (mn - 1 / 2, mx + 1 / 2) else (mn, mx)

/-- Edge `i` of `k` equal-width bins spanning `[lo, hi]`
(`np.linspace(lo, hi, k + 1)`). -/
def binEdge (lo hi : ℚ) (k i : ℕ) : ℚ :=
  lo + (i : ℚ) * ((hi - lo) / (k : ℚ))

/-- Membership of a value in bin `i` of `k`: half-open `[eᵢ, eᵢ₊₁)`, except
that the last bin also includes its upper edge (`np.histogram` semantics). -/
def inBin (lo hi : ℚ) (k i : ℕ) (x : ℚ) : Bool :=
  decide (binEdge lo hi k i ≤ x) &&
    (if i + 1 = k then decide (x ≤ binEdge lo hi k k)
     else decide (x < binEdge lo hi k (i + 1)))

/-- Histogram builder (`simulation.compute_histogram`): `num_buckets`
equal-width bins over the `np.histogram` outer edges, with per-bucket count
and the count divided by the number of simulations (rounded to 4 decimals,
and defined as 0 when the distribution is empty). -/
def compute_histogram (outcomes : List ℚ) (num_buckets : ℕ) : List HistogramBucket :=
  let fl := histRange outcomes
  let n := outcomes.length
  (List.range num_buckets).map (fun i =>
    let low := binEdge fl.1 fl.2 num_buckets i
    let high := binEdge fl.1 fl.2 num_buckets (i + 1)
    let c := outcomes.countP (inBin fl.1 fl.2 num_buckets i)
    { range_low := pyRound 2 low
      range_high := pyRound 2 high
      count := c
      frequency := if 0 < n then pyRound 4 ((c : ℚ) / (n : ℚ)) else 0 })

/-- Default revenue targets (`config.Settings.default_revenue_targets`). -/
def default_revenue_targets : List ℚ :=
  [1000000, 5000000, 10000000, 25000000, 50000000]

/-- Run metadata (`models.SimulationMetadata`, without the wall-clock and
version fields, which are not modelled). -/
structure SimulationMetadata where
  num_simulations : ℕ
  opportunities_included : ℕ
  opportunities_filtered_out : ℕ
  time_horizon_days : Option ℤ

/-- Full response (`models.SimulationResponse`). -/
structure SimulationResponse where
  summary_statistics : SummaryStatistics
  target_analysis : List TargetAnalysis
  histogram_buckets : List HistogramBucket
  metadata : SimulationMetadata

/-- Orchestrator (`simulation.run_full_simulation`): filter by horizon, fall
back to the default targets when none (or an empty list) are supplied, run the
trial engine, then assemble statistics, target analysis, histogram and
metadata.  The only failure path is the empty-distribution NumPy error raised
inside the statistics step. -/
noncomputable def run_full_simulation (today : ℤ) (draws : ℕ → ℕ → ℚ)
    (opportunities : List Opportunity) (num_simulations : ℕ)
    (time_horizon_days : Option ℤ) (revenue_targets : Option (List ℚ)) :
    Except SimError SimulationResponse :=
  let fr := filter_opportunities_by_horizon today opportunities time_horizon_days
  let targets := match revenue_targets with
    | some ts => if ts.isEmpty then default_revenue_targets else ts
    | none => default_revenue_targets
  let outcomes := run_monte_carlo fr.1 num_simulations draws
  match compute_summary_statistics outcomes fr.1 with
  | .error e => .error e
  | .ok stats =>
      .ok { summary_statistics := stats
            target_analysis := compute_target_analysis outcomes targets num_simulations
            histogram_buckets := compute_histogram outcomes 12
            metadata :=
              { num_simulations := num_simulations
                opportunities_included := fr.1.length
                opportunities_filtered_out := fr.2
                time_horizon_days := time_horizon_days } }

/-- Placeholder opportunity used only as the (never reached) `getD` default
when indexing an opportunity list inside a proved bound. -/
def dummyOpportunity : Opportunity :=
  { name := "", amount := 0, probability := 0, close_date := 0 }

/-- Targets carried by a successful simulation response (a projection used to
state facts about the orchestrator's output). -/
def okTargets : Except SimError SimulationResponse → List ℚ
  | .ok resp => resp.target_analysis.map (fun r => r.target)
  | .error _ => []

/-! ## Helper lemmas on the trial engine -/

theorem wonAmount_nonneg (o : Opportunity) (u : ℚ) (h : 0 ≤ o.amount) :
    0 ≤ wonAmount o u := by
  unfold wonAmount
  split <;> simp [h]

theorem wonAmount_le (o : Opportunity) (u : ℚ) (h : 0 ≤ o.amount) :
    wonAmount o u ≤ o.amount := by
  unfold wonAmount
  split <;> simp [h]

theorem trialOutcome_nonneg (opps : List Opportunity) (d : ℕ → ℚ)
    (h : ∀ o ∈ opps, 0 ≤ o.amount) : 0 ≤ trialOutcome opps d := by
  induction opps generalizing d with
  | nil => simp [trialOutcome]
  | cons o rest ih =>
      have h1 := wonAmount_nonneg o (d 0) (h o (by simp))
      have h2 := ih (fun j => d (j + 1)) (fun x hx => h x (by simp [hx]))
      simpa [trialOutcome] using add_nonneg h1 h2

theorem trialOutcome_le_total (opps : List Opportunity) (d : ℕ → ℚ)
    (h : ∀ o ∈ opps, 0 ≤ o.amount) :
    trialOutcome opps d ≤ (opps.map (fun o => o.amount)).sum := by
  induction opps generalizing d with
  | nil => simp [trialOutcome]
  | cons o rest ih =>
      have h1 := wonAmount_le o (d 0) (h o (by simp))
      have h2 := ih (fun j => d (j + 1)) (fun x hx => h x (by simp [hx]))
      simpa [trialOutcome] using add_le_add h1 h2

theorem trialOutcome_eq_sum (opps : List Opportunity) (d : ℕ → ℚ) :
    trialOutcome opps d =
      ((List.range opps.length).map (fun j =>
        if d j < (opps.getD j dummyOpportunity).probability
        then (opps.getD j dummyOpportunity).amount else 0)).sum := by
  induction opps generalizing d with
  | nil => simp [trialOutcome]
  | cons o rest ih =>
      rw [trialOutcome, ih (fun j => d (j + 1))]
      simp [List.length_cons, List.range_succ_eq_map, List.map_map, wonAmount,
        Function.comp_def]

/-! ## C1 – C4 -/

/-- C1: `run_monte_carlo` always returns an outcome distribution of length
`num_simulations`; on an empty opportunity list it returns `num_simulations`
zeros, independently of the supplied random draws. -/
theorem C1_distribution_length (opportunities : List Opportunity)
    (num_simulations : ℕ) (draws : ℕ → ℕ → ℚ) :
    (run_monte_carlo opportunities num_simulations draws).length = num_simulations ∧
    (opportunities = [] →
      run_monte_carlo opportunities num_simulations draws =
        List.replicate num_simulations 0) := by
  constructor
  · unfold run_monte_carlo
    split <;> simp
  · intro h
    subst h
    simp [run_monte_carlo]

/-- Witness for C1 at a concrete input. -/
theorem C1_distribution_length_witness :
    (run_monte_carlo [] 5 (fun _ _ => 1 / 3)).length = 5 ∧
    run_monte_carlo [] 5 (fun _ _ => 1 / 3) = List.replicate 5 0 :=
  ⟨(C1_distribution_length [] 5 (fun _ _ => 1 / 3)).1,
   (C1_distribution_length [] 5 (fun _ _ => 1 / 3)).2 rfl⟩

/-- C2: when every included event has a positive amount and a probability in
`[0,1]`, every value of the outcome distribution lies in
`[0, totalPipelineValue]`, for every trial count and every draw assignment. -/
theorem C2_outcomes_bounded (opportunities : List Opportunity)
    (num_simulations : ℕ) (draws : ℕ → ℕ → ℚ)
    (hamt : ∀ o ∈ opportunities, 0 < o.amount)
    (hprob : ∀ o ∈ opportunities, 0 ≤ o.probability ∧ o.probability ≤ 1) :
    ∀ x ∈ run_monte_carlo opportunities num_simulations draws,
      0 ≤ x ∧ x ≤ (opportunities.map (fun o => o.amount)).sum := by
  have hnn : ∀ o ∈ opportunities, 0 ≤ o.amount := fun o ho => (hamt o ho).le
  intro x hx
  unfold run_monte_carlo at hx
  split at hx
  · have : x = 0 := List.eq_of_mem_replicate hx
    subst this
    refine ⟨le_refl 0, List.sum_nonneg ?_⟩
    intro a ha
    obtain ⟨o, ho, rfl⟩ := List.mem_map.mp ha
    exact hnn o ho
  · obtain ⟨i, _, rfl⟩ := List.mem_map.mp hx
    exact ⟨trialOutcome_nonneg opportunities (draws i) hnn,
      trialOutcome_le_total opportunities (draws i) hnn⟩

/-- Witness for C2 at a concrete input. -/
theorem C2_outcomes_bounded_witness :
    (0 : ℚ) ≤ 10 ∧
      (10 : ℚ) ≤ (([{ name := "A", amount := 10, probability := 1 / 2, close_date := 0 }] :
        List Opportunity).map (fun o => o.amount)).sum :=
  C2_outcomes_bounded
    [{ name := "A", amount := 10, probability := 1 / 2, close_date := 0 }] 3
    (fun _ _ => 1 / 4)
    (by intro o ho; simp at ho; subst ho; norm_num)
    (by intro o ho; simp at ho; subst ho; norm_num)
    10
    (by
      rw [show run_monte_carlo
          [{ name := "A", amount := 10, probability := 1 / 2, close_date := 0 }] 3
          (fun _ _ => 1 / 4) =
        (List.range 3).map (fun i => trialOutcome
          [{ name := "A", amount := 10, probability := 1 / 2, close_date := 0 }]
          (fun _ => 1 / 4)) from rfl,
        show List.range 3 = [0, 1, 2] from rfl]
      simp only [List.map_cons, List.map_nil, trialOutcome, wonAmount]
      norm_num)

/-- C3: in `run_monte_carlo` an event is won in a trial exactly when its
uniform draw is strictly below its win probability, and each trial outcome is
the sum of the won amounts; hence, with draws in `[0,1)`, a probability-1
event always contributes its full amount and a probability-0 event never
contributes. -/
theorem C3_bernoulli_semantics (opportunities : List Opportunity)
    (num_simulations : ℕ) (draws : ℕ → ℕ → ℚ)
    (hd : ∀ i j, 0 ≤ draws i j ∧ draws i j < 1) :
    run_monte_carlo opportunities num_simulations draws =
      (List.range num_simulations).map (fun i =>
        ((List.range opportunities.length).map (fun j =>
          if draws i j < (opportunities.getD j dummyOpportunity).probability
          then (opportunities.getD j dummyOpportunity).amount else 0)).sum) ∧
    (∀ i j, j < opportunities.length →
      ((opportunities.getD j dummyOpportunity).probability = 1 →
        (if draws i j < (opportunities.getD j dummyOpportunity).probability
         then (opportunities.getD j dummyOpportunity).amount else 0) =
          (opportunities.getD j dummyOpportunity).amount) ∧
      ((opportunities.getD j dummyOpportunity).probability = 0 →
        (if draws i j < (opportunities.getD j dummyOpportunity).probability
         then (opportunities.getD j dummyOpportunity).amount else 0) = 0)) := by
  constructor
  · unfold run_monte_carlo
    split
    · rename_i hemp
      rw [List.isEmpty_iff] at hemp
      subst hemp
      simp [List.map_const]
    · exact List.map_congr_left fun i _ => trialOutcome_eq_sum opportunities (draws i)
  · intro i j _
    constructor
    · intro hp
      rw [hp, if_pos (hd i j).2]
    · intro hp
      rw [hp, if_neg (not_lt.mpr (hd i j).1)]

/-- Witness for C3 at a concrete input. -/
theorem C3_bernoulli_semantics_witness :
    run_monte_carlo [{ name := "A", amount := 7, probability := 1, close_date := 0 }] 2
        (fun _ _ => 1 / 4) =
      (List.range 2).map (fun i =>
        ((List.range ([{ name := "A", amount := 7, probability := 1, close_date := 0 }] :
            List Opportunity).length).map (fun j =>
          if (fun (_ _ : ℕ) => (1 / 4 : ℚ)) i j <
              (([{ name := "A", amount := 7, probability := 1, close_date := 0 }] :
                List Opportunity).getD j dummyOpportunity).probability
          then (([{ name := "A", amount := 7, probability := 1, close_date := 0 }] :
            List Opportunity).getD j dummyOpportunity).amount else 0)).sum) :=
  (C3_bernoulli_semantics _ 2 _ (fun _ _ => by norm_num)).1

/-- C4: the horizon filter keeps exactly the events with
`today ≤ closeDate ≤ today + horizonDays` (both bounds inclusive, so
past-dated events are always excluded), and with no horizon it returns the
whole list with an excluded count of 0. -/
theorem C4_horizon_filter (today : ℤ) (opportunities : List Opportunity) :
    filter_opportunities_by_horizon today opportunities none = (opportunities, 0) ∧
    ∀ d : ℤ,
      (∀ o, o ∈ (filter_opportunities_by_horizon today opportunities (some d)).1 ↔
        o ∈ opportunities ∧ today ≤ o.close_date ∧ o.close_date ≤ today + d) ∧
      (∀ o ∈ opportunities, o.close_date < today →
        o ∉ (filter_opportunities_by_horizon today opportunities (some d)).1) := by
  refine ⟨rfl, fun d => ⟨fun o => ?_, fun o _ hpast hmem => ?_⟩⟩
  · simp [filter_opportunities_by_horizon, List.mem_filter]
  · have := ((by
      simp [filter_opportunities_by_horizon, List.mem_filter] :
        o ∈ (filter_opportunities_by_horizon today opportunities (some d)).1 ↔
          o ∈ opportunities ∧ today ≤ o.close_date ∧ o.close_date ≤ today + d)).mp hmem
    exact absurd this.2.1 (not_le.mpr hpast)

/-- Witness for C4 at a concrete input. -/
theorem C4_horizon_filter_witness :
    filter_opportunities_by_horizon 0
        [{ name := "B", amount := 5, probability := 1 / 2, close_date := -3 }] none =
      ([{ name := "B", amount := 5, probability := 1 / 2, close_date := -3 }], 0) ∧
    { name := "B", amount := 5, probability := 1 / 2, close_date := -3 } ∉
      (filter_opportunities_by_horizon 0
        [{ name := "B", amount := 5, probability := 1 / 2, close_date := -3 }] (some 30)).1 :=
  ⟨(C4_horizon_filter 0 _).1,
   ((C4_horizon_filter 0 _).2 30).2 _ (by simp) (by norm_num)⟩

/-! ## Helper lemmas on rounding and sorting -/

theorem pyRoundInt_ge_floor (q : ℚ) : ⌊q⌋ ≤ pyRoundInt q := by
  simp only [pyRoundInt]
  split_ifs <;> omega

theorem pyRoundInt_le_floor_add_one (q : ℚ) : pyRoundInt q ≤ ⌊q⌋ + 1 := by
  simp only [pyRoundInt]
  split_ifs <;> omega

theorem pyRoundInt_mono {a b : ℚ} (h : a ≤ b) : pyRoundInt a ≤ pyRoundInt b := by
  rcases lt_or_eq_of_le (Int.floor_le_floor h) with hf | hf
  · calc pyRoundInt a ≤ ⌊a⌋ + 1 := pyRoundInt_le_floor_add_one a
      _ ≤ ⌊b⌋ := by omega
      _ ≤ pyRoundInt b := pyRoundInt_ge_floor b
  · have hr : a - (⌊a⌋ : ℚ) ≤ b - (⌊b⌋ : ℚ) := by
      rw [← hf]
      linarith
    simp only [pyRoundInt, ← hf]
    split_ifs <;> first | omega | (exfalso; linarith)

theorem pyRound_mono (d : ℕ) {a b : ℚ} (h : a ≤ b) : pyRound d a ≤ pyRound d b := by
  unfold pyRound
  have h10 : (0 : ℚ) < 10 ^ d := by positivity
  exact (div_le_div_right h10).mpr
    (Int.cast_le.mpr (pyRoundInt_mono (mul_le_mul_of_nonneg_right h h10.le)))

theorem sortAsc_sorted (xs : List ℚ) : List.Sorted (· ≤ ·) (sortAsc xs) :=
  List.sorted_insertionSort _ xs

theorem sortAsc_perm (xs : List ℚ) : (sortAsc xs).Perm xs :=
  List.perm_insertionSort _ xs

theorem sortAsc_length (xs : List ℚ) : (sortAsc xs).length = xs.length :=
  List.length_insertionSort _ xs

/-! ## C5 -/

/-- C5: target analysis returns one record per target, in ascending target
order regardless of input order; each record carries the hit probability
`count(outcomes ≥ target) / trialCount` rounded to 4 decimals, and a
percentage string formatted (to one decimal place) from the unrounded
probability. -/
theorem C5_target_analysis (outcomes targets : List ℚ) (num_simulations : ℕ)
    (hn : 0 < num_simulations) :
    (compute_target_analysis outcomes targets num_simulations).length = targets.length ∧
    List.Sorted (· ≤ ·)
      ((compute_target_analysis outcomes targets num_simulations).map (fun r => r.target)) ∧
    ∀ r ∈ compute_target_analysis outcomes targets num_simulations,
      ∃ t ∈ targets,
        r.target = pyRound 2 t ∧
        r.probability = pyRound 4 ((countGe outcomes t : ℚ) / (num_simulations : ℚ)) ∧
        r.probability_pct =
          fmtFixed1 (((countGe outcomes t : ℚ) / (num_simulations : ℚ)) * 100) ++ "%" := by
  refine ⟨?_, ?_, ?_⟩
  · simp [compute_target_analysis, sortAsc_length]
  · unfold compute_target_analysis
    rw [List.map_map]
    exact List.Pairwise.map _ (fun a b hab => pyRound_mono 2 hab) (sortAsc_sorted targets)
  · intro r hr
    unfold compute_target_analysis at hr
    obtain ⟨t, ht, rfl⟩ := List.mem_map.mp hr
    exact ⟨t, (sortAsc_perm targets).mem_iff.mp ht, rfl, rfl, rfl⟩

/-- Witness for C5 at a concrete input. -/
theorem C5_target_analysis_witness :
    (compute_target_analysis [0, 10] [5, 1] 2).length = 2 :=
  (C5_target_analysis [0, 10] [5, 1] 2 (by norm_num)).1

/-! ## Helper lemmas on the orchestrator -/

theorem run_monte_carlo_isEmpty_false (opps : List Opportunity) (n : ℕ)
    (draws : ℕ → ℕ → ℚ) (hn : 0 < n) :
    (run_monte_carlo opps n draws).isEmpty = false := by
  unfold run_monte_carlo
  split
  · simp [List.isEmpty_iff]
    omega
  · simp [List.isEmpty_iff, List.range_eq_nil]
    omega

theorem run_monte_carlo_zero_trials (opps : List Opportunity) (draws : ℕ → ℕ → ℚ) :
    run_monte_carlo opps 0 draws = [] := by
  unfold run_monte_carlo
  split <;> simp

/-! ## C10 -/

/-- C10: the horizon filter returns an order-preserving subsequence of its
input and an excluded count equal to the input length minus the included
length; consequently, whenever the orchestrator returns a response, its
metadata satisfies `opportunities_included + opportunities_filtered_out =
length of the supplied event list`. -/
theorem C10_count_conservation (today : ℤ) (draws : ℕ → ℕ → ℚ)
    (opportunities : List Opportunity) (num_simulations : ℕ)
    (horizon : Option ℤ) (revenue_targets : Option (List ℚ))
    (hn : 0 < num_simulations) :
    (filter_opportunities_by_horizon today opportunities horizon).1.Sublist opportunities ∧
    (filter_opportunities_by_horizon today opportunities horizon).2 =
      opportunities.length -
        (filter_opportunities_by_horizon today opportunities horizon).1.length ∧
    (filter_opportunities_by_horizon today opportunities horizon).1.length +
      (filter_opportunities_by_horizon today opportunities horizon).2 =
        opportunities.length ∧
    (run_full_simulation today draws opportunities num_simulations horizon
        revenue_targets).map
      (fun resp => resp.metadata.opportunities_included +
        resp.metadata.opportunities_filtered_out) = .ok opportunities.length := by
  have hsub : (filter_opportunities_by_horizon today opportunities horizon).1.Sublist
      opportunities := by
    cases horizon with
    | none => exact List.Sublist.refl _
    | some d => exact List.filter_sublist _
  have hcnt : (filter_opportunities_by_horizon today opportunities horizon).2 =
      opportunities.length -
        (filter_opportunities_by_horizon today opportunities horizon).1.length := by
    cases horizon with
    | none => simp [filter_opportunities_by_horizon]
    | some d => rfl
  have hlen := hsub.length_le
  have hsum : (filter_opportunities_by_horizon today opportunities horizon).1.length +
      (filter_opportunities_by_horizon today opportunities horizon).2 =
        opportunities.length := by
    rw [hcnt]
    omega
  refine ⟨hsub, hcnt, hsum, ?_⟩
  have hne := run_monte_carlo_isEmpty_false
    (filter_opportunities_by_horizon today opportunities horizon).1 num_simulations draws hn
  simp only [run_full_simulation, compute_summary_statistics, hne, Bool.false_eq_true,
    if_false, Except.map]
  exact congrArg Except.ok hsum

/-- Witness for C10 at a concrete input. -/
theorem C10_count_conservation_witness :
    (run_full_simulation 0 (fun _ _ => 0)
        [{ name := "B", amount := 5, probability := 1 / 2, close_date := -3 }] 2
        (some 30) none).map
      (fun resp => resp.metadata.opportunities_included +
        resp.metadata.opportunities_filtered_out) = .ok 1 :=
  (C10_count_conservation 0 (fun _ _ => 0)
    [{ name := "B", amount := 5, probability := 1 / 2, close_date := -3 }] 2
    (some 30) none (by norm_num)).2.2.2

/-! ## C9 -/

/-- C9 (amended): the core performs no parameter validation.  Invoked directly
with a non-positive target it silently computes and returns a normal result in
which that target has been processed like any other (its rounded value appears
in the returned target analysis); invoked with a zero trial count it fails,
but with the empty-distribution reduction error raised inside the statistics
step, not a distinct validation failure. -/
theorem C9_no_core_validation (today : ℤ) (draws : ℕ → ℕ → ℚ)
    (opportunities : List Opportunity) (num_simulations : ℕ) (horizon : Option ℤ)
    (targets : List ℚ) (t : ℚ) (ht : t ∈ targets) (ht0 : t ≤ 0)
    (hn : 0 < num_simulations) :
    (run_full_simulation today draws opportunities num_simulations horizon
      (some targets)).isOk = true ∧
    pyRound 2 t ∈ okTargets (run_full_simulation today draws opportunities
      num_simulations horizon (some targets)) ∧
    run_full_simulation today draws opportunities 0 horizon (some targets) =
      .error .emptyDistribution := by
  have hts : targets.isEmpty = false := by
    simp [List.isEmpty_iff]
    exact List.ne_nil_of_mem ht
  have hne := run_monte_carlo_isEmpty_false
    (filter_opportunities_by_horizon today opportunities horizon).1 num_simulations draws hn
  refine ⟨?_, ?_, ?_⟩
  · simp only [run_full_simulation, compute_summary_statistics, hts, hne,
      Bool.false_eq_true, if_false, Except.isOk, Except.toBool]
  · simp only [run_full_simulation, compute_summary_statistics, hts, hne,
      Bool.false_eq_true, if_false, okTargets, compute_target_analysis, List.map_map]
    exact List.mem_map.mpr ⟨t, (sortAsc_perm targets).mem_iff.mpr ht, rfl⟩
  · simp [run_full_simulation, run_monte_carlo_zero_trials, compute_summary_statistics]

/-- Witness for C9 (amended) at a concrete input. -/
theorem C9_no_core_validation_witness :
    pyRound 2 (-5) ∈ okTargets (run_full_simulation 0 (fun _ _ => 0)
      [{ name := "A", amount := 100, probability := 1, close_date := 30 }] 2 none
      (some [-5])) :=
  (C9_no_core_validation 0 (fun _ _ => 0)
    [{ name := "A", amount := 100, probability := 1, close_date := 30 }] 2 none
    [-5] (-5) (by simp) (by norm_num) (by norm_num)).2.1

/-- C9 counterexample: invoked directly with a non-positive revenue target
(and an otherwise well-formed request), `run_full_simulation` returns a
normal result instead of signalling any validation failure. -/
theorem C9_counterexample_returns_result :
    (run_full_simulation 0 (fun _ _ => 0)
      [{ name := "A", amount := 100, probability := 1, close_date := 30 }] 2 none
      (some [-5])).isOk = true := rfl

/-! ## Helper lemmas on statistics -/

theorem npMin_le {xs : List ℚ} {x : ℚ} (hx : x ∈ xs) : npMin xs ≤ x := by
  unfold npMin
  cases hm : xs.min? with
  | none =>
      rw [List.min?_eq_none_iff] at hm
      subst hm
      cases hx
  | some m =>
      haveI : Std.Antisymm (fun x y : ℚ => x ≤ y) := ⟨fun h1 h2 => le_antisymm h1 h2⟩
      exact ((List.min?_eq_some_iff (fun _ => le_refl _) min_choice
        (fun _ _ _ => le_min_iff)).mp hm).2 x hx

theorem le_npMax {xs : List ℚ} {x : ℚ} (hx : x ∈ xs) : x ≤ npMax xs := by
  unfold npMax
  cases hm : xs.max? with
  | none =>
      rw [List.max?_eq_none_iff] at hm
      subst hm
      cases hx
  | some m =>
      haveI : Std.Antisymm (fun x y : ℚ => x ≤ y) := ⟨fun h1 h2 => le_antisymm h1 h2⟩
      exact ((List.max?_eq_some_iff (fun _ => le_refl _) max_choice
        (fun _ _ _ => max_le_iff)).mp hm).2 x hx

theorem npMin_mem {xs : List ℚ} (h : xs ≠ []) : npMin xs ∈ xs := by
  unfold npMin
  cases hm : xs.min? with
  | none =>
      rw [List.min?_eq_none_iff] at hm
      exact absurd hm h
  | some m => exact List.min?_mem min_choice hm

theorem npMax_mem {xs : List ℚ} (h : xs ≠ []) : npMax xs ∈ xs := by
  unfold npMax
  cases hm : xs.max? with
  | none =>
      rw [List.max?_eq_none_iff] at hm
      exact absurd hm h
  | some m => exact List.max?_mem max_choice hm

theorem npMin_le_npMax {xs : List ℚ} (h : xs ≠ []) : npMin xs ≤ npMax xs :=
  le_trans (npMin_le (npMax_mem h)) (le_refl _)

theorem getD_zero_of_all_zero {xs : List ℚ} (h : ∀ x ∈ xs, x = 0) (i : ℕ) :
    xs.getD i 0 = 0 := by
  rcases lt_or_ge i xs.length with hi | hi
  · rw [List.getD_eq_getElem _ _ hi]
    exact h _ (List.getElem_mem hi)
  · exact List.getD_eq_default _ _ hi

theorem sortAsc_all_zero {xs : List ℚ} (h : ∀ x ∈ xs, x = 0) :
    ∀ x ∈ sortAsc xs, x = 0 :=
  fun x hx => h x ((sortAsc_perm xs).mem_iff.mp hx)

theorem npMean_all_zero {xs : List ℚ} (h : ∀ x ∈ xs, x = 0) : npMean xs = 0 := by
  unfold npMean
  rw [List.sum_eq_zero h, zero_div]

theorem npMedian_all_zero {xs : List ℚ} (h : ∀ x ∈ xs, x = 0) : npMedian xs = 0 := by
  have hs := sortAsc_all_zero h
  simp only [npMedian]
  split_ifs
  · rfl
  · exact getD_zero_of_all_zero hs _
  · rw [getD_zero_of_all_zero hs, getD_zero_of_all_zero hs]
    norm_num

theorem interpAt_all_zero {b : List ℚ} (h : ∀ x ∈ b, x = 0) (r : ℚ) :
    interpAt b r = 0 := by
  simp only [interpAt]
  split
  · rw [getD_zero_of_all_zero h, getD_zero_of_all_zero h]
    ring
  · exact getD_zero_of_all_zero h _

theorem npPercentile_all_zero {xs : List ℚ} (h : ∀ x ∈ xs, x = 0) (q : ℚ) :
    npPercentile xs q = 0 :=
  interpAt_all_zero (sortAsc_all_zero h) _

theorem popVariance_all_zero {xs : List ℚ} (h : ∀ x ∈ xs, x = 0) :
    popVariance xs = 0 := by
  unfold popVariance
  rw [npMean_all_zero h, List.sum_eq_zero, zero_div]
  intro y hy
  obtain ⟨x, hx, rfl⟩ := List.mem_map.mp hy
  rw [h x hx]
  ring

theorem npMin_all_zero {xs : List ℚ} (hne : xs ≠ []) (h : ∀ x ∈ xs, x = 0) :
    npMin xs = 0 :=
  h _ (npMin_mem hne)

theorem npMax_all_zero {xs : List ℚ} (hne : xs ≠ []) (h : ∀ x ∈ xs, x = 0) :
    npMax xs = 0 :=
  h _ (npMax_mem hne)

theorem popVariance_nonneg (xs : List ℚ) : 0 ≤ popVariance xs := by
  unfold popVariance
  apply div_nonneg _ (Nat.cast_nonneg _)
  apply List.sum_nonneg
  intro y hy
  obtain ⟨x, _, rfl⟩ := List.mem_map.mp hy
  positivity

theorem pyRound_zero (d : ℕ) : pyRound d 0 = 0 := by
  simp [pyRound, pyRoundInt]

/-! ## C6 -/

/-- C6 (amended): the standard deviation returned by
`compute_summary_statistics` is the population one (its square times the
sample size is the sum of squared deviations from the mean — divisor `n`, not
`n - 1`); the two pipeline aggregates are computed directly from the event
data — `Σ amount` and `Σ amount × winProbability`, each rounded to 2 decimal
places — and are 0 when the event list is empty; and on an all-zero outcome
distribution (the degenerate run of an empty event list) every
distribution-derived statistic is 0. -/
theorem C6_summary_statistics (outcomes : List ℚ) (opportunities : List Opportunity)
    (h : outcomes ≠ []) :
    compute_summary_statistics outcomes opportunities =
      .ok (summaryStats outcomes opportunities) ∧
    (summaryStats outcomes opportunities).std_dev ^ 2 * (outcomes.length : ℝ) =
      ((outcomes.map (fun x => (x - npMean outcomes) ^ 2)).sum : ℚ) ∧
    0 ≤ (summaryStats outcomes opportunities).std_dev ∧
    (summaryStats outcomes opportunities).total_pipeline_value =
      pyRound 2 (opportunities.map (fun o => o.amount)).sum ∧
    (summaryStats outcomes opportunities).weighted_pipeline_value =
      pyRound 2 (opportunities.map (fun o => o.amount * o.probability)).sum ∧
    (opportunities = [] →
      (summaryStats outcomes opportunities).total_pipeline_value = 0 ∧
      (summaryStats outcomes opportunities).weighted_pipeline_value = 0) ∧
    ((∀ x ∈ outcomes, x = 0) →
      (summaryStats outcomes opportunities).mean = 0 ∧
      (summaryStats outcomes opportunities).median = 0 ∧
      (summaryStats outcomes opportunities).std_dev = 0 ∧
      (summaryStats outcomes opportunities).p10 = 0 ∧
      (summaryStats outcomes opportunities).p25 = 0 ∧
      (summaryStats outcomes opportunities).p75 = 0 ∧
      (summaryStats outcomes opportunities).p90 = 0 ∧
      (summaryStats outcomes opportunities).min_outcome = 0 ∧
      (summaryStats outcomes opportunities).max_outcome = 0) := by
  have hlen : (outcomes.length : ℚ) ≠ 0 := by
    simpa [List.length_eq_zero] using h
  refine ⟨?_, ?_, ?_, rfl, rfl, ?_, ?_⟩
  · unfold compute_summary_statistics
    rw [if_neg]
    simp [List.isEmpty_iff, h]
  · show npStd outcomes ^ 2 * (outcomes.length : ℝ) = _
    unfold npStd
    rw [Real.sq_sqrt (by exact_mod_cast popVariance_nonneg outcomes)]
    have hq : popVariance outcomes * (outcomes.length : ℚ) =
        (outcomes.map (fun x => (x - npMean outcomes) ^ 2)).sum :=
      div_mul_cancel₀ _ hlen
    exact_mod_cast hq
  · exact Real.sqrt_nonneg _
  · intro hop
    subst hop
    simp [summaryStats, pyRound_zero]
  · intro hz
    exact ⟨npMean_all_zero hz, npMedian_all_zero hz,
      by show npStd outcomes = 0; rw [npStd, popVariance_all_zero hz]; simp,
      npPercentile_all_zero hz 10, npPercentile_all_zero hz 25,
      npPercentile_all_zero hz 75, npPercentile_all_zero hz 90,
      npMin_all_zero h hz, npMax_all_zero h hz⟩

/-- Witness for C6 (amended) at a concrete input. -/
theorem C6_summary_statistics_witness :
    compute_summary_statistics [0] [] = .ok (summaryStats [0] []) ∧
    (summaryStats [0] []).mean = 0 :=
  ⟨(C6_summary_statistics [0] [] (by simp)).1,
   ((C6_summary_statistics [0] [] (by simp)).2.2.2.2.2.2 (by simp)).1⟩

/-- C6 counterexample: the weighted pipeline value is rounded to 2 decimal
places, so it is not exactly `Σ amount × winProbability` — here the sum is
`1/8 = 0.125` but the returned value is `0.12 = 3/25`. -/
theorem C6_counterexample_weighted_rounded :
    compute_summary_statistics [0]
        [{ name := "A", amount := 1, probability := 1 / 8, close_date := 0 }] =
      .ok (summaryStats [0]
        [{ name := "A", amount := 1, probability := 1 / 8, close_date := 0 }]) ∧
    (summaryStats [0]
      [{ name := "A", amount := 1, probability := 1 / 8, close_date := 0 }]).weighted_pipeline_value
      = 3 / 25 ∧
    (([{ name := "A", amount := 1, probability := 1 / 8, close_date := 0 }] :
      List Opportunity).map (fun o => o.amount * o.probability)).sum = 1 / 8 ∧
    (3 / 25 : ℚ) ≠ 1 / 8 := by
  refine ⟨rfl, ?_, by norm_num, by norm_num⟩
  show pyRound 2 (([{ name := "A", amount := 1, probability := 1 / 8, close_date := 0 }] :
    List Opportunity).map (fun o => o.amount * o.probability)).sum = 3 / 25
  norm_num [pyRound, pyRoundInt]

/-! ## Helper lemmas on percentiles -/

theorem sorted_getD_mono {l : List ℚ} (h : List.Sorted (· ≤ ·) l) {i j : ℕ}
    (hij : i ≤ j) (hj : j < l.length) : l.getD i 0 ≤ l.getD j 0 := by
  have hi : i < l.length := lt_of_le_of_lt hij hj
  rw [List.getD_eq_getElem _ _ hi, List.getD_eq_getElem _ _ hj]
  have := h.rel_get_of_le (a := ⟨i, hi⟩) (b := ⟨j, hj⟩) hij
  simpa using this

theorem le_interpAt {b : List ℚ} (hb : List.Sorted (· ≤ ·) b) (hne : b ≠ [])
    {r : ℚ} (hr0 : 0 ≤ r) (hrn : r ≤ (b.length : ℚ) - 1) :
    b.getD (⌊r⌋).toNat 0 ≤ interpAt b r := by
  have hfl0 : (0 : ℤ) ≤ ⌊r⌋ := Int.floor_nonneg.mpr hr0
  have hcast : (((⌊r⌋).toNat : ℕ) : ℚ) = ((⌊r⌋ : ℤ) : ℚ) := by
    exact_mod_cast congrArg (fun z : ℤ => (z : ℚ)) (Int.toNat_of_nonneg hfl0)
  have hile : (((⌊r⌋).toNat : ℕ) : ℚ) ≤ r := by
    rw [hcast]
    exact Int.floor_le r
  have hlen0 : 0 < b.length := List.length_pos.mpr hne
  simp only [interpAt]
  split
  · rename_i hlt
    have hmono := sorted_getD_mono hb (Nat.le_succ (⌊r⌋).toNat) hlt
    have := mul_nonneg (sub_nonneg.mpr hile) (sub_nonneg.mpr hmono)
    linarith
  · rename_i hge
    apply sorted_getD_mono hb ?_ (by omega)
    have h1 : (((⌊r⌋).toNat : ℕ) : ℚ) ≤ ((b.length - 1 : ℕ) : ℚ) := by
      rw [Nat.cast_sub hlen0]
      push_cast
      linarith
    exact_mod_cast h1

theorem interpAt_le {b : List ℚ} (hb : List.Sorted (· ≤ ·) b) (hne : b ≠ [])
    {r : ℚ} (hr0 : 0 ≤ r) :
    interpAt b r ≤ b.getD (min ((⌊r⌋).toNat + 1) (b.length - 1)) 0 := by
  have hfl0 : (0 : ℤ) ≤ ⌊r⌋ := Int.floor_nonneg.mpr hr0
  have hcast : (((⌊r⌋).toNat : ℕ) : ℚ) = ((⌊r⌋ : ℤ) : ℚ) := by
    exact_mod_cast congrArg (fun z : ℤ => (z : ℚ)) (Int.toNat_of_nonneg hfl0)
  have hrlt : r < (((⌊r⌋).toNat : ℕ) : ℚ) + 1 := by
    rw [hcast]
    exact Int.lt_floor_add_one r
  simp only [interpAt]
  split
  · rename_i hlt
    rw [min_eq_left (by omega)]
    have hmono := sorted_getD_mono hb (Nat.le_succ (⌊r⌋).toNat) hlt
    have := mul_nonneg (by linarith : (0 : ℚ) ≤ 1 - (r - (((⌊r⌋).toNat : ℕ) : ℚ)))
      (sub_nonneg.mpr hmono)
    nlinarith
  · rename_i hge
    rw [min_eq_right (by omega)]

theorem interpAt_mono {b : List ℚ} (hb : List.Sorted (· ≤ ·) b) (hne : b ≠ [])
    {r s : ℚ} (hr0 : 0 ≤ r) (hrs : r ≤ s) (hsn : s ≤ (b.length : ℚ) - 1) :
    interpAt b r ≤ interpAt b s := by
  have hs0 : 0 ≤ s := le_trans hr0 hrs
  have hlen0 : 0 < b.length := List.length_pos.mpr hne
  have hjlt : (⌊s⌋).toNat < b.length := by
    have h1 : ((⌊s⌋ : ℤ) : ℚ) ≤ ((b.length : ℕ) : ℚ) - 1 := le_trans (Int.floor_le s) hsn
    have h2 : ⌊s⌋ ≤ (b.length : ℤ) - 1 := by exact_mod_cast h1
    omega
  by_cases hij : (⌊r⌋).toNat = (⌊s⌋).toNat
  · simp only [interpAt, hij]
    split
    · rename_i hlt
      have hmono := sorted_getD_mono hb (Nat.le_succ (⌊s⌋).toNat) hlt
      have := mul_le_mul_of_nonneg_right
        (sub_le_sub_right hrs ((((⌊s⌋).toNat : ℕ) : ℚ))) (sub_nonneg.mpr hmono)
      linarith
    · exact le_refl _
  · have hij2 : (⌊r⌋).toNat < (⌊s⌋).toNat := by
      have := Int.toNat_le_toNat (Int.floor_le_floor hrs)
      omega
    calc interpAt b r
        ≤ b.getD (min ((⌊r⌋).toNat + 1) (b.length - 1)) 0 := interpAt_le hb hne hr0
      _ ≤ b.getD ((⌊s⌋).toNat) 0 := sorted_getD_mono hb (by omega) hjlt
      _ ≤ interpAt b s := le_interpAt hb hne hs0 hsn

theorem sortAsc_ne_nil {xs : List ℚ} (hne : xs ≠ []) : sortAsc xs ≠ [] := by
  intro hc
  apply hne
  have hp := sortAsc_perm xs
  rw [hc] at hp
  exact (hp.symm).eq_nil

theorem npPercentile_mono (xs : List ℚ) (hne : xs ≠ []) {p q : ℚ}
    (hp0 : 0 ≤ p) (hpq : p ≤ q) (hq : q ≤ 100) :
    npPercentile xs p ≤ npPercentile xs q := by
  unfold npPercentile
  have hn1 : 1 ≤ xs.length := List.length_pos.mpr hne
  have hnn : (0 : ℚ) ≤ (xs.length : ℚ) - 1 := by
    have : (1 : ℚ) ≤ (xs.length : ℚ) := by exact_mod_cast hn1
    linarith
  apply interpAt_mono (sortAsc_sorted xs) (sortAsc_ne_nil hne)
  · exact mul_nonneg (div_nonneg hp0 (by norm_num)) hnn
  · exact mul_le_mul_of_nonneg_right (by linarith) hnn
  · rw [sortAsc_length]
    nlinarith

theorem interpAt_natCast (b : List ℚ) (k : ℕ) (hk : k < b.length) :
    interpAt b (k : ℚ) = b.getD k 0 := by
  simp only [interpAt, Int.floor_natCast, Int.toNat_natCast]
  split
  · rw [sub_self, zero_mul, add_zero]
  · congr 1
    omega

theorem interpAt_half (b : List ℚ) (k : ℕ) (hk : k + 1 < b.length) :
    interpAt b ((k : ℚ) + 1 / 2) = (b.getD k 0 + b.getD (k + 1) 0) / 2 := by
  have hfl : ⌊(k : ℚ) + 1 / 2⌋ = (k : ℤ) := by
    apply Int.floor_eq_iff.mpr
    constructor <;> push_cast <;> linarith
  simp only [interpAt, hfl, Int.toNat_natCast]
  rw [if_pos hk]
  push_cast
  ring

theorem npMedian_eq_percentile (xs : List ℚ) (hne : xs ≠ []) :
    npMedian xs = npPercentile xs 50 := by
  have hb : (sortAsc xs).length = xs.length := sortAsc_length xs
  have hpos : 0 < xs.length := List.length_pos.mpr hne
  unfold npPercentile
  rcases Nat.even_or_odd xs.length with he | ho
  · obtain ⟨k, hk⟩ := he
    have hk1 : 1 ≤ k := by omega
    have hrank : (50 : ℚ) / 100 * ((xs.length : ℚ) - 1) = ((k - 1 : ℕ) : ℚ) + 1 / 2 := by
      rw [hk, Nat.cast_add, Nat.cast_sub hk1]
      push_cast
      ring
    rw [hrank, interpAt_half _ _ (by rw [hb]; omega)]
    simp only [npMedian, hb]
    rw [if_neg (by omega), if_neg (by omega), show xs.length / 2 = k from by omega,
      show k - 1 + 1 = k from by omega]
  · obtain ⟨k, hk⟩ := ho
    have hrank : (50 : ℚ) / 100 * ((xs.length : ℚ) - 1) = (k : ℚ) := by
      rw [hk]
      push_cast
      ring
    rw [hrank, interpAt_natCast _ _ (by rw [hb]; omega)]
    simp only [npMedian, hb]
    rw [if_neg (by omega), if_pos (by omega)]
    congr 1
    omega

/-! ## C8 -/

/-- C8: the percentile outputs of `compute_summary_statistics` are
monotonically non-decreasing: `p10 ≤ p25 ≤ median ≤ p75 ≤ p90` (on every
nonempty outcome distribution, which is the case in which the statistics are
returned at all). -/
theorem C8_percentiles_monotone (outcomes : List ℚ) (opportunities : List Opportunity)
    (h : outcomes ≠ []) :
    compute_summary_statistics outcomes opportunities =
      .ok (summaryStats outcomes opportunities) ∧
    (summaryStats outcomes opportunities).p10 ≤ (summaryStats outcomes opportunities).p25 ∧
    (summaryStats outcomes opportunities).p25 ≤ (summaryStats outcomes opportunities).median ∧
    (summaryStats outcomes opportunities).median ≤ (summaryStats outcomes opportunities).p75 ∧
    (summaryStats outcomes opportunities).p75 ≤ (summaryStats outcomes opportunities).p90 := by
  refine ⟨?_, ?_, ?_, ?_, ?_⟩
  · unfold compute_summary_statistics
    rw [if_neg]
    simp [List.isEmpty_iff, h]
  · exact npPercentile_mono outcomes h (by norm_num) (by norm_num) (by norm_num)
  · show npPercentile outcomes 25 ≤ npMedian outcomes
    rw [npMedian_eq_percentile outcomes h]
    exact npPercentile_mono outcomes h (by norm_num) (by norm_num) (by norm_num)
  · show npMedian outcomes ≤ npPercentile outcomes 75
    rw [npMedian_eq_percentile outcomes h]
    exact npPercentile_mono outcomes h (by norm_num) (by norm_num) (by norm_num)
  · exact npPercentile_mono outcomes h (by norm_num) (by norm_num) (by norm_num)

/-- Witness for C8 at a concrete input. -/
theorem C8_percentiles_monotone_witness :
    (summaryStats [3, 1] []).p10 ≤ (summaryStats [3, 1] []).p25 ∧
    (summaryStats [3, 1] []).p25 ≤ (summaryStats [3, 1] []).median :=
  ⟨(C8_percentiles_monotone [3, 1] [] (by simp)).2.1,
   (C8_percentiles_monotone [3, 1] [] (by simp)).2.2.1⟩

/-! ## Helper lemmas on the histogram -/

theorem binEdge_expand (lo hi : ℚ) (k i : ℕ) :
    binEdge lo hi k i = lo + (i : ℚ) * ((hi - lo) / (k : ℚ)) := rfl

theorem binEdge_last (lo hi : ℚ) {k : ℕ} (hk : 0 < k) : binEdge lo hi k k = hi := by
  unfold binEdge
  have hk0 : (k : ℚ) ≠ 0 := by
    exact_mod_cast Nat.pos_iff_ne_zero.mp hk
  field_simp

theorem binEdge_strict_mono {lo hi : ℚ} (hlh : lo < hi) {k : ℕ} (hk : 0 < k)
    {i j : ℕ} (hij : i < j) : binEdge lo hi k i < binEdge lo hi k j := by
  unfold binEdge
  have hw : 0 < (hi - lo) / (k : ℚ) := by
    apply div_pos (by linarith)
    exact_mod_cast hk
  have hc : (i : ℚ) < (j : ℚ) := by exact_mod_cast hij
  nlinarith

theorem binEdge_le {lo hi : ℚ} (hlh : lo < hi) {k : ℕ} (hk : 0 < k)
    {i j : ℕ} (hij : i ≤ j) : binEdge lo hi k i ≤ binEdge lo hi k j := by
  rcases lt_or_eq_of_le hij with h | h
  · exact (binEdge_strict_mono hlh hk h).le
  · rw [h]

theorem inBin_unique {lo hi : ℚ} (hlh : lo < hi) {k : ℕ} (hk : 0 < k) (x : ℚ)
    {i j : ℕ} (hik : i < k) (hjk : j < k) (hbi : inBin lo hi k i x = true)
    (hbj : inBin lo hi k j x = true) : i = j := by
  have key : ∀ {a b : ℕ}, a < k → b < k → inBin lo hi k a x = true →
      inBin lo hi k b x = true → a < b → False := by
    intro a b ha hb hba hbb hab
    have ha1 : a + 1 ≠ k := by omega
    unfold inBin at hba hbb
    rw [if_neg ha1] at hba
    simp only [Bool.and_eq_true, decide_eq_true_eq] at hba hbb
    have hle : binEdge lo hi k (a + 1) ≤ binEdge lo hi k b := binEdge_le hlh hk (by omega)
    linarith [hba.2, hbb.1]
  rcases Nat.lt_trichotomy i j with h | h | h
  · exact absurd (key hik hjk hbi hbj h) not_false
  · exact h
  · exact absurd (key hjk hik hbj hbi h) not_false

theorem inBin_exists {lo hi : ℚ} (hlh : lo < hi) {k : ℕ} (hk : 0 < k) {x : ℚ}
    (hx1 : lo ≤ x) (hx2 : x ≤ hi) : ∃ i, i < k ∧ inBin lo hi k i x = true := by
  have hkq : (0 : ℚ) < (k : ℚ) := by exact_mod_cast hk
  have hwpos : 0 < (hi - lo) / (k : ℚ) := div_pos (by linarith) hkq
  have hkw : (k : ℚ) * ((hi - lo) / (k : ℚ)) = hi - lo := by field_simp
  by_cases hxh : x = hi
  · refine ⟨k - 1, by omega, ?_⟩
    unfold inBin
    rw [if_pos (by omega)]
    simp only [Bool.and_eq_true, decide_eq_true_eq]
    refine ⟨?_, ?_⟩
    · rw [binEdge_expand]
      have hc : ((k - 1 : ℕ) : ℚ) ≤ (k : ℚ) := by exact_mod_cast Nat.sub_le k 1
      nlinarith
    · rw [binEdge_last lo hi hk]
      exact hx2
  · have hxlt : x < hi := lt_of_le_of_ne hx2 hxh
    set w : ℚ := (hi - lo) / (k : ℚ) with hw
    set t : ℚ := (x - lo) / w with ht
    have ht0 : 0 ≤ t := div_nonneg (by linarith) hwpos.le
    have hxw : x = lo + t * w := by
      rw [ht]
      field_simp
    have htklt : t < (k : ℚ) := by
      rw [ht, div_lt_iff hwpos]
      nlinarith
    have hfl0 : (0 : ℤ) ≤ ⌊t⌋ := Int.floor_nonneg.mpr ht0
    set j : ℕ := (⌊t⌋).toNat with hj
    have hjc : ((j : ℕ) : ℚ) = ((⌊t⌋ : ℤ) : ℚ) := by
      exact_mod_cast congrArg (fun z : ℤ => (z : ℚ)) (Int.toNat_of_nonneg hfl0)
    have hjle : ((j : ℕ) : ℚ) ≤ t := by
      rw [hjc]
      exact Int.floor_le t
    have hjlt1 : t < ((j : ℕ) : ℚ) + 1 := by
      rw [hjc]
      exact Int.lt_floor_add_one t
    have hjk : j < k := by
      have : ⌊t⌋ < (k : ℤ) := Int.floor_lt.mpr (by exact_mod_cast htklt)
      omega
    refine ⟨j, hjk, ?_⟩
    unfold inBin
    simp only [Bool.and_eq_true, decide_eq_true_eq]
    refine ⟨?_, ?_⟩
    · rw [binEdge_expand, ← hw]
      nlinarith
    · split
      · rw [decide_eq_true_eq, binEdge_last lo hi hk]
        exact hx2
      · rw [decide_eq_true_eq, binEdge_expand, ← hw]
        push_cast
        nlinarith

theorem sum_map_range_eq {M : Type} [AddCommMonoid M] (f : ℕ → M) (n : ℕ) :
    ((List.range n).map f).sum = ∑ i ∈ Finset.range n, f i := by
  induction n with
  | zero => simp
  | succ m ih =>
      rw [List.range_succ, List.map_append, List.sum_append, Finset.sum_range_succ, ih]
      simp

theorem sum_ite_inBin {lo hi : ℚ} (hlh : lo < hi) {k : ℕ} (hk : 0 < k) {x : ℚ}
    (hx1 : lo ≤ x) (hx2 : x ≤ hi) :
    ((List.range k).map (fun i => if inBin lo hi k i x = true then 1 else 0)).sum = 1 := by
  obtain ⟨i0, hi0k, hbin⟩ := inBin_exists hlh hk hx1 hx2
  rw [sum_map_range_eq]
  rw [Finset.sum_eq_single i0]
  · rw [if_pos hbin]
  · intro b hb hbne
    rw [if_neg]
    intro hbb
    exact hbne (inBin_unique hlh hk x (Finset.mem_range.mp hb) hi0k hbb hbin)
  · intro habs
    exact absurd (Finset.mem_range.mpr hi0k) habs

theorem counts_sum {lo hi : ℚ} (hlh : lo < hi) {k : ℕ} (hk : 0 < k)
    (xs : List ℚ) (hx : ∀ x ∈ xs, lo ≤ x ∧ x ≤ hi) :
    ((List.range k).map (fun i => xs.countP (inBin lo hi k i))).sum = xs.length := by
  induction xs with
  | nil => simp
  | cons y ys ih =>
      have hy := hx y (by simp)
      have hys : ∀ x ∈ ys, lo ≤ x ∧ x ≤ hi := fun x hxx => hx x (by simp [hxx])
      simp only [List.countP_cons]
      rw [List.sum_map_add, ih hys, sum_ite_inBin hlh hk hy.1 hy.2]
      simp

theorem histRange_cases {outcomes : List ℚ} (hne : outcomes ≠ []) :
    (npMin outcomes < npMax outcomes →
      histRange outcomes = (npMin outcomes, npMax outcomes)) ∧
    (npMin outcomes = npMax outcomes →
      histRange outcomes = (npMin outcomes - 1 / 2, npMax outcomes + 1 / 2)) := by
  unfold histRange
  rw [if_neg (by simp [List.isEmpty_iff, hne])]
  constructor
  · intro hlt
    rw [if_neg (ne_of_lt hlt)]
  · intro heq
    rw [if_pos heq]

theorem histRange_bounds {outcomes : List ℚ} (hne : outcomes ≠ []) :
    (histRange outcomes).1 < (histRange outcomes).2 ∧
    ∀ x ∈ outcomes, (histRange outcomes).1 ≤ x ∧ x ≤ (histRange outcomes).2 := by
  rcases lt_or_eq_of_le (npMin_le_npMax hne) with hlt | heq
  · rw [(histRange_cases hne).1 hlt]
    exact ⟨hlt, fun x hx => ⟨npMin_le hx, le_npMax hx⟩⟩
  · rw [(histRange_cases hne).2 heq]
    refine ⟨by dsimp only; linarith, fun x hx => ?_⟩
    have h1 := npMin_le hx
    have h2 := le_npMax hx
    constructor <;> dsimp only <;> linarith

/-! ## C7 -/

/-- C7 (amended): for a nonempty outcome distribution with `min < max`,
`compute_histogram` partitions the observed range `[min, max]` into 12
equal-width buckets whose last upper bound is inclusive; when `min = max` the
binning range is widened to `[min - 0.5, max + 0.5]` (NumPy degenerate-range
behaviour).  The bucket counts always sum exactly to the number of trials,
each bucket's frequency is `count / trialCount` rounded to 4 decimal places,
and when the distribution is empty every count and frequency is 0. -/
theorem C7_histogram_partition (outcomes : List ℚ) :
    (outcomes ≠ [] →
      (histRange outcomes).1 < (histRange outcomes).2 ∧
      (npMin outcomes < npMax outcomes →
        histRange outcomes = (npMin outcomes, npMax outcomes)) ∧
      (npMin outcomes = npMax outcomes →
        histRange outcomes = (npMin outcomes - 1 / 2, npMax outcomes + 1 / 2)) ∧
      binEdge (histRange outcomes).1 (histRange outcomes).2 12 0 =
        (histRange outcomes).1 ∧
      binEdge (histRange outcomes).1 (histRange outcomes).2 12 12 =
        (histRange outcomes).2 ∧
      (∀ i : ℕ,
        binEdge (histRange outcomes).1 (histRange outcomes).2 12 (i + 1) -
          binEdge (histRange outcomes).1 (histRange outcomes).2 12 i =
        ((histRange outcomes).2 - (histRange outcomes).1) / 12) ∧
      (compute_histogram outcomes 12).length = 12 ∧
      ((compute_histogram outcomes 12).map (fun b => b.count)).sum = outcomes.length ∧
      (∀ b ∈ compute_histogram outcomes 12,
        b.frequency = pyRound 4 ((b.count : ℚ) / (outcomes.length : ℚ)))) ∧
    (outcomes = [] → ∀ b ∈ compute_histogram outcomes 12,
      b.count = 0 ∧ b.frequency = 0) := by
  constructor
  · intro hne
    obtain ⟨hlh, hbounds⟩ := histRange_bounds hne
    have hcases := histRange_cases hne
    have hnpos : 0 < outcomes.length := List.length_pos.mpr hne
    refine ⟨hlh, hcases.1, hcases.2, ?_, binEdge_last _ _ (by norm_num), ?_, ?_, ?_, ?_⟩
    · simp [binEdge]
    · intro i
      rw [binEdge_expand, binEdge_expand]
      push_cast
      ring
    · simp [compute_histogram]
    · have hmap : (compute_histogram outcomes 12).map (fun b => b.count) =
          (List.range 12).map (fun i =>
            outcomes.countP (inBin (histRange outcomes).1 (histRange outcomes).2 12 i)) := by
        simp only [compute_histogram, List.map_map]
        rfl
      rw [hmap]
      exact counts_sum hlh (by norm_num) outcomes hbounds
    · intro b hb
      simp only [compute_histogram, List.mem_map] at hb
      obtain ⟨i, _, rfl⟩ := hb
      simp only
      rw [if_pos hnpos]
  · intro hemp
    subst hemp
    intro b hb
    simp only [compute_histogram, List.mem_map] at hb
    obtain ⟨i, _, rfl⟩ := hb
    constructor
    · simp [List.countP_nil]
    · simp

/-- Witness for C7 (amended) at a concrete input. -/
theorem C7_histogram_partition_witness :
    ((compute_histogram [2, 5] 12).map (fun b => b.count)).sum = 2 :=
  ((C7_histogram_partition [2, 5]).1 (by simp)).2.2.2.2.2.2.2.1

/-- C7 counterexample: on the constant distribution `[1, 1]` the first bucket
starts at `0.5`, not at `min = 1`, so the histogram does not partition the
observed range `[min, max]`; and on `[0, 0, 1]` the first bucket's frequency
is the rounded `0.6667`, not exactly `count / trialCount = 2 / 3`. -/
theorem C7_counterexample_range_and_rounding :
    ((compute_histogram [1, 1] 12).map (fun b => b.range_low)).headD 0 = 1 / 2 ∧
    npMin [1, 1] = 1 ∧ (1 / 2 : ℚ) ≠ 1 ∧
    ((compute_histogram [0, 0, 1] 12).map (fun b => b.count)).headD 0 = 2 ∧
    ((compute_histogram [0, 0, 1] 12).map (fun b => b.frequency)).headD 0 = 6667 / 10000 ∧
    (6667 / 10000 : ℚ) ≠ 2 / 3 := by
  have hmin1 : npMin [1, 1] = (1 : ℚ) := by
    simp [npMin, List.min?]
  have hmax1 : npMax [1, 1] = (1 : ℚ) := by
    simp [npMax, List.max?]
  have hr1 : histRange [1, 1] = (1 / 2, 3 / 2) := by
    simp only [histRange]
    rw [if_neg (by simp), if_pos (by rw [hmin1, hmax1]), hmin1, hmax1]
    norm_num
  have hmin3 : npMin [0, 0, 1] = (0 : ℚ) := by
    simp [npMin, List.min?]
  have hmax3 : npMax [0, 0, 1] = (1 : ℚ) := by
    simp [npMax, List.max?]
  have hr3 : histRange [0, 0, 1] = (0, 1) := by
    simp only [histRange]
    rw [if_neg (by simp), if_neg (by rw [hmin3, hmax3]; norm_num), hmin3, hmax3]
  have hrange12 : List.range 12 = 0 :: [1, 2, 3, 4, 5, 6, 7, 8, 9, 10, 11] := rfl
  refine ⟨?_, hmin1, by norm_num, ?_, ?_, by norm_num⟩
  · simp only [compute_histogram, hr1, hrange12, List.map_cons, List.headD_cons]
    show pyRound 2 (binEdge (1 / 2) (3 / 2) 12 0) = 1 / 2
    rw [binEdge_expand]
    norm_num [pyRound, pyRoundInt]
  · simp only [compute_histogram, hr3, hrange12, List.map_cons, List.headD_cons]
    show List.countP (inBin 0 1 12 0) [0, 0, 1] = 2
    simp only [List.countP_cons, List.countP_nil, inBin, binEdge]
    norm_num
  · simp only [compute_histogram, hr3, hrange12, List.map_cons, List.headD_cons]
    show (if 0 < ([0, 0, 1] : List ℚ).length then
        pyRound 4 ((List.countP (inBin 0 1 12 0) [0, 0, 1] : ℚ) / (([0, 0, 1] : List ℚ).length : ℚ))
      else 0) = 6667 / 10000
    rw [if_pos (by simp)]
    have hcnt : List.countP (inBin 0 1 12 0) [0, 0, 1] = 2 := by
      simp only [List.countP_cons, List.countP_nil, inBin, binEdge]
      norm_num
    rw [hcnt]
    norm_num [pyRound, pyRoundInt]
